import Mathlib

/-!
Shallow embedding of `src/buic.py` (backup integrity check).

Modelling conventions:
* Text is `List Char`; file contents are `List Nat` (byte values).
* The SHA-256 digest primitive `calculate_sha256` is an external library call
  (`hashlib`); it is modelled as a parameter `sha : List Nat → List Char`
  mapping a file's content bytes to its hex-digest string.  Collision-freeness
  of SHA-256 is taken as an explicit hypothesis where a claim depends on it.
* A directory tree, as enumerated by `os.walk` + `os.path.relpath`, is the
  list of its regular files in traversal order: pairs
  `(relative path, content)`.  For the fallible variants (a file that cannot
  be opened or read) the content is an `Option`: `none` models a file whose
  read raises `OSError`.
* Python `dict` is an association list where `dictInsert` overwrites the
  value of an existing key in place and appends new keys, and `dictGet`
  models `dict.get` (returning `none` when absent).
* `colored` is modelled as the identity, matching the script's own fallback
  definition when `termcolor` is not installed (decoration is presentation
  only, outside the engine per the spec).
-/

namespace Buic

/-- Convenience: the character list of a string literal. -/
def str (s : String) : List Char := s.data

/-- The manifest line delimiter `':::'` (src/buic.py line 30/31/147). -/
def delim : List Char := str ":::"

/-- The characters removed by Python `str.strip()`: the Unicode whitespace
set of `str.isspace` — the ASCII controls `\t`, `\n`, `\x0b`, `\x0c`, `\r`,
the separators `\x1c`-`\x1f`, the space, next-line `\x85`, no-break space
`\xa0`, `\u1680`, the `\u2000`-`\u200a` range, `\u2028`, `\u2029`, `\u202f`,
`\u205f` and `\u3000`. -/
def isPySpace (c : Char) : Bool :=
  c == ' ' || c == '\t' || c == '\n' || c == '\x0b' || c == '\x0c' || c == '\r' ||
  c == '\x1c' || c == '\x1d' || c == '\x1e' || c == '\x1f' ||
  c == '\x85' || c == '\xa0' || c == '\u1680' ||
  (decide ('\u2000' ≤ c) && decide (c ≤ '\u200a')) ||
  c == '\u2028' || c == '\u2029' || c == '\u202f' || c == '\u205f' || c == '\u3000'

/-- `startsWith d s`: `d` occurs at the start of `s`. -/
def startsWith : List Char → List Char → Bool
  | [], _ => true
  | _ :: _, [] => false
  | a :: as, b :: bs => a == b && startsWith as bs

/-- Python's substring test `d in s`. -/
def containsSeq (d : List Char) : List Char → Bool
  | [] => startsWith d []
  | c :: rest => startsWith d (c :: rest) || containsSeq d rest

/-- Python `s.split(d, 1)` (for `d` occurring in `s`): split at the first
occurrence of `d`.  When `d` does not occur the pair `(s, [])` is returned;
the source only calls this under a `d in s` guard (line 30). -/
def splitFirst (d : List Char) : List Char → List Char × List Char
  | [] => ([], [])
  | c :: rest =>
    if startsWith d (c :: rest) then ([], (c :: rest).drop d.length)
    else
      let r := splitFirst d rest
      (c :: r.1, r.2)

/-- Python `s.strip()`: remove leading and trailing whitespace. -/
def pyStrip (l : List Char) : List Char :=
  (((l.dropWhile isPySpace).reverse).dropWhile isPySpace).reverse

/-- Python's universal-newline translation, applied by text-mode reading
(`open(hash_file, 'r')` with the default `newline=None`, src/buic.py line
28): on input, `'\r\n'` and a lone `'\r'` are both translated to `'\n'`. -/
def normNewlines : List Char → List Char
  | [] => []
  | [c] => if c == '\r' then ['\n'] else [c]
  | c :: c2 :: rest =>
    if c == '\r' then
      if c2 == '\n' then '\n' :: normNewlines rest
      else '\n' :: normNewlines (c2 :: rest)
    else c :: normNewlines (c2 :: rest)

/-- Split an already newline-translated text into its lines at `'\n'`. -/
def splitLinesNl : List Char → List (List Char)
  | [] => [[]]
  | c :: rest =>
    if c == '\n' then [] :: splitLinesNl rest
    else
      match splitLinesNl rest with
      | [] => [[c]]
      | l :: ls => (c :: l) :: ls

/-- The lines `for line in f` yields from the raw file text: the text-mode
reader first applies the universal-newline translation, then iteration
splits at `'\n'`.  Python yields each line with its terminator; since
`load_hashes` strips every line and `':::' in line` is unaffected by a
trailing `'\n'`, splitting the terminators off up front is an equivalent
model. -/
def splitLines (s : List Char) : List (List Char) :=
  splitLinesNl (normNewlines s)

/-- Python `dict` update `h[k] = v`: overwrite in place, else append. -/
def dictInsert (k v : List Char) : List (List Char × List Char) → List (List Char × List Char)
  | [] => [(k, v)]
  | e :: rest => if e.1 = k then (k, v) :: rest else e :: dictInsert k v rest

/-- Python `dict.get k`: value of the (unique) entry with key `k`, if any. -/
def dictGet (k : List Char) : List (List Char × List Char) → Option (List Char)
  | [] => none
  | e :: rest => if e.1 = k then some e.2 else dictGet k rest

/-- One iteration of the `load_hashes` loop (src/buic.py lines 29-32): a line
containing `':::'` is stripped and split at the first `':::'` into
`(rel_path, hashval)`; any other line is skipped. -/
def entryOfLine (line : List Char) : Option (List Char × List Char) :=
  if containsSeq delim line then some (splitFirst delim (pyStrip line)) else none

/-- `load_hashes` over an explicit list of lines (src/buic.py lines 26-33). -/
def loadHashesLines (lines : List (List Char)) : List (List Char × List Char) :=
  lines.foldl
    (fun h line =>
      match entryOfLine line with
      | some e => dictInsert e.1 e.2 h
      | none => h)
    []

/-- `load_hashes` (src/buic.py lines 26-33) on the manifest file's text. -/
def loadHashes (text : List Char) : List (List Char × List Char) :=
  loadHashesLines (splitLines text)

/-- The newline written by `out.write(... + "\n")`. -/
def newlineChar : Char := '\n'

/-- One manifest line `f"{rel_path}:::{hash_value}\n"` (src/buic.py line 147). -/
def manifestLine (p d : List Char) : List Char := p ++ delim ++ d ++ [newlineChar]

/-- The manifest text written for an entry list: one `manifestLine` per entry,
in order (src/buic.py lines 133-147 restricted to successful hashes). -/
def encodeManifest (m : List (List Char × List Char)) : List Char :=
  (m.map (fun e => manifestLine e.1 e.2)).flatten

/-- The (path, digest) pairs the build loop emits, in traversal order
(src/buic.py lines 126-147, every file readable). -/
def buildEntries (sha : List Nat → List Char) (files : List (List Char × List Nat)) :
    List (List Char × List Char) :=
  files.map (fun f => (f.1, sha f.2))

/-- The manifest text produced by a build run in which every file is
readable (src/buic.py lines 133-147). -/
def buildText (sha : List Nat → List Char) (files : List (List Char × List Nat)) : List Char :=
  encodeManifest (buildEntries sha files)

/-- The manifest text produced by a build run with possibly unreadable files:
`calculate_sha256` raising is caught per file (src/buic.py lines 145-149), the
failure is printed and nothing is written for that file; the loop continues. -/
def buildTextF (sha : List Nat → List Char) (files : List (List Char × Option (List Nat))) :
    List Char :=
  (files.map (fun f =>
    match f.2 with
    | some c => manifestLine f.1 (sha c)
    | none => [])).flatten

/-- The per-file verification loop, every file readable (src/buic.py lines
53-64): for each file, in traversal order, recompute the digest and compare
with `hashes.get(rel_path)`; `True` is `verified`, `False` is
`failed verification`. -/
def verifyResults (sha : List Nat → List Char) (m : List (List Char × List Char))
    (files : List (List Char × List Nat)) : List (List Char × Bool) :=
  files.map (fun f => (f.1, decide (dictGet f.1 m = some (sha f.2))))

/-- The two counters incremented by the loop (src/buic.py lines 45-46, 61, 64):
`(verified_count, failed_count)`. -/
def verifyCounts (sha : List Nat → List Char) (m : List (List Char × List Char))
    (files : List (List Char × List Nat)) : Nat × Nat :=
  files.foldl
    (fun acc f =>
      if dictGet f.1 m = some (sha f.2) then (acc.1 + 1, acc.2) else (acc.1, acc.2 + 1))
    (0, 0)

def verifiedCount (sha : List Nat → List Char) (m : List (List Char × List Char))
    (files : List (List Char × List Nat)) : Nat :=
  (verifyCounts sha m files).1

def failedCount (sha : List Nat → List Char) (m : List (List Char × List Char))
    (files : List (List Char × List Nat)) : Nat :=
  (verifyCounts sha m files).2

/-- `total_files = verified_count + failed_count` (src/buic.py line 71). -/
def totalFiles (sha : List Nat → List Char) (m : List (List Char × List Char))
    (files : List (List Char × List Nat)) : Nat :=
  verifiedCount sha m files + failedCount sha m files

/-- Length of a path's final component: `os.walk` yields entry basenames, and
`max_file_len` (src/buic.py line 50) maximises over those. -/
def basenameLen (p : List Char) : Nat :=
  (p.reverse.takeWhile (fun c => !(c == '/'))).length

/-- `max((len(file) ...), default=0)` (src/buic.py line 50). -/
def maxFileLen (files : List (List Char × List Nat)) : Nat :=
  files.foldr (fun f acc => max (basenameLen f.1) acc) 0

/-- `status_col = max_file_len + 8` (src/buic.py line 51). -/
def statusCol (files : List (List Char × List Nat)) : Nat := maxFileLen files + 8

/-- One result line `f"{rel_path} {dashes} {status}"` (src/buic.py lines
60-67); Python's `'-' * n` is empty for `n ≤ 0`, matching `Nat` subtraction. -/
def statusLine (col : Nat) (p : List Char) (ok : Bool) : List Char :=
  p ++ [' '] ++ List.replicate (col - p.length) '-' ++ [' '] ++
    (if ok then str "verified" else str "failed verification")

def summaryTitle : List Char := str "Summary"

/-- `'-' * (len("Summary") + 2)` (src/buic.py lines 74-75). -/
def summaryBorder : List Char := List.replicate (summaryTitle.length + 2) '-'

/-- `f"|{summary_title}|"` (src/buic.py line 76). -/
def summaryHeader : List Char := ['|'] ++ summaryTitle ++ ['|']

/-- Decimal rendering of a count, as interpolated by the f-strings. -/
def natChars (n : Nat) : List Char := (Nat.repr n).data

/-- The exact text written to the summary file by the sequence of
`out.write` calls (src/buic.py lines 96-104). -/
def reportText (sha : List Nat → List Char) (m : List (List Char × List Char))
    (files : List (List Char × List Nat)) : List Char :=
  ((verifyResults sha m files).map
      (fun r => statusLine (statusCol files) r.1 r.2 ++ [newlineChar])).flatten
  ++ [newlineChar] ++ summaryBorder ++ [newlineChar]
  ++ summaryHeader ++ [newlineChar]
  ++ summaryBorder ++ [newlineChar]
  ++ str "Total files: " ++ natChars (totalFiles sha m files) ++ [newlineChar]
  ++ str "Verified: " ++ natChars (verifiedCount sha m files) ++ [newlineChar]
  ++ str "Failed Verification: " ++ natChars (failedCount sha m files) ++ [newlineChar]

/-- The report, line by line: one status line per traversed file in traversal
order, the blank separator, the boxed `Summary` header, and the three count
lines. -/
def reportLines (sha : List Nat → List Char) (m : List (List Char × List Char))
    (files : List (List Char × List Nat)) : List (List Char) :=
  files.map (fun f => statusLine (statusCol files) f.1 (decide (dictGet f.1 m = some (sha f.2))))
  ++ [[]]
  ++ [summaryBorder, summaryHeader, summaryBorder]
  ++ [str "Total files: " ++ natChars (totalFiles sha m files),
      str "Verified: " ++ natChars (verifiedCount sha m files),
      str "Failed Verification: " ++ natChars (failedCount sha m files)]

/-- Join a list of lines into a text, terminating each with `'\n'`. -/
def linesJoin (ls : List (List Char)) : List Char :=
  (ls.map (fun l => l ++ [newlineChar])).flatten

/-- Spec-side observer — the code has no `Missing` category, so this has no
counterpart in `src/buic.py`: the manifest paths that are absent from the
traversed files (`Missing` in the spec's data model, §3). -/
def specMissingPaths (m : List (List Char × List Char))
    (files : List (List Char × List Nat)) : List (List Char) :=
  (m.map Prod.fst).filter (fun p => !((files.map Prod.fst).contains p))

/-- Arguments and world state of a `verify_hashes` invocation
(src/buic.py lines 36-44, 53-57): the two CLI arguments, the results of the
`os.path.isdir` / `os.path.isfile` probes, the manifest file's text, and the
directory's files (content `none` = reading raises `OSError`). -/
structure VerifyArgs where
  directory : List Char
  hashFile : List Char
  dirExists : Bool
  manifestExists : Bool
  manifestText : List Char
  files : List (List Char × Option (List Nat))

/-- `f"Error: {directory} is not a valid directory."` (src/buic.py line 38). -/
def dirErrMsg (d : List Char) : List Char :=
  str "Error: " ++ (d ++ str " is not a valid directory.")

/-- `f"Error: {hash_file} does not exist."` (src/buic.py line 41). -/
def manifestErrMsg (f : List Char) : List Char :=
  str "Error: " ++ (f ++ str " does not exist.")

/-- The uncaught `OSError` raised by `calculate_sha256` when a file cannot be
read during verification (src/buic.py lines 20, 57 — no handler on the verify
path). -/
def readErrMsg (p : List Char) : List Char :=
  str "OSError: unable to read " ++ p

/-- The verification loop with fallible reads (src/buic.py lines 53-64):
`calculate_sha256` at line 57 is not wrapped in any handler, so the first
unreadable file raises and the whole run aborts (`Except.error`), discarding
all work; readable files are classified as in `verifyResults`. -/
def verifyTraverse (sha : List Nat → List Char) (m : List (List Char × List Char)) :
    List (List Char × Option (List Nat)) → Except (List Char) (List (List Char × Bool))
  | [] => Except.ok []
  | f :: rest =>
    match f.2 with
    | none => Except.error (readErrMsg f.1)
    | some c =>
      match verifyTraverse sha m rest with
      | Except.error e => Except.error e
      | Except.ok rs => Except.ok ((f.1, decide (dictGet f.1 m = some (sha c))) :: rs)

/-- `verify_hashes` end to end (src/buic.py lines 36-64): the two
precondition probes with their distinct fatal messages (`exit(1)` modelled as
`Except.error`), then loading the manifest and traversing; the payload is the
ordered list of per-file classifications. -/
def verifyRun (sha : List Nat → List Char) (w : VerifyArgs) :
    Except (List Char) (List (List Char × Bool)) :=
  if w.dirExists = false then Except.error (dirErrMsg w.directory)
  else if w.manifestExists = false then Except.error (manifestErrMsg w.hashFile)
  else verifyTraverse sha (loadHashes w.manifestText) w.files

/-- A concrete stand-in digest function for closed witnesses and
counterexamples: each byte is rendered as its last decimal digit.  (Nothing
below depends on its collision behaviour except where hypothesised and
discharged at concrete inputs.) -/
def demoHash (c : List Nat) : List Char :=
  c.map (fun b => Char.ofNat (48 + b % 10))

/-- A relative path that survives `load_hashes` unchanged: it contains no
delimiter occurrence, cannot complete a delimiter occurrence across the
join point (no trailing `':'`), contains no line terminator — neither
`'\n'` nor `'\r'`, which the text-mode reader also translates to a
terminator — and is not eroded by `str.strip()` (no leading Unicode
whitespace). -/
def cleanPathB (p : List Char) : Bool :=
  !containsSeq delim p && !(p.getLast? == some ':') && !decide (newlineChar ∈ p) &&
    !decide ('\r' ∈ p) && p.head?.all (fun c => !isPySpace c)

/-- A digest string that survives `load_hashes` unchanged: no line
terminator (`'\n'` or `'\r'`) and no trailing Unicode whitespace (a
SHA-256 hex digest always qualifies). -/
def cleanDigestB (d : List Char) : Bool :=
  !decide (newlineChar ∈ d) && !decide ('\r' ∈ d) &&
    d.getLast?.all (fun c => !isPySpace c)

/-! ### Lemmas about the codec primitives -/

theorem delim_eq : delim = [':', ':', ':'] := rfl

theorem startsWith_append (l t : List Char) : startsWith l (l ++ t) = true := by
  induction l with
  | nil => rfl
  | cons a as ih => simp [startsWith, ih]

theorem containsSeq_of_startsWith {d s : List Char} (h : startsWith d s = true) :
    containsSeq d s = true := by
  match s with
  | [] => exact h
  | c :: rest => simp [containsSeq, h]

theorem containsSeq_append_delim (p d : List Char) :
    containsSeq delim (p ++ (delim ++ d)) = true := by
  induction p with
  | nil =>
    simpa using containsSeq_of_startsWith (startsWith_append delim d)
  | cons c p ih => simp [containsSeq, ih]

theorem containsSeq_cons_false {d : List Char} {c : Char} {rest : List Char}
    (h : containsSeq d (c :: rest) = false) : containsSeq d rest = false := by
  simp [containsSeq] at h
  exact h.2

theorem splitFirst_append_delim (p d : List Char)
    (h3 : containsSeq delim p = false) (hl : p.getLast? ≠ some ':') :
    splitFirst delim (p ++ (delim ++ d)) = (p, d) := by
  induction p with
  | nil =>
    simp only [List.nil_append]
    rw [splitFirst.eq_def]
    simp [delim_eq, startsWith]
  | cons c p ih =>
    have hguard : startsWith delim ((c :: p) ++ (delim ++ d)) = false := by
      match p with
      | [] =>
        have hc : (':' == c) = false := by
          have hc0 : c ≠ ':' := by
            intro hc
            exact hl (by simp [hc])
          exact beq_eq_false_iff_ne.mpr (fun h => hc0 h.symm)
        simp [delim_eq, startsWith, hc]
      | [c2] =>
        have hc2 : (':' == c2) = false := by
          have hc0 : c2 ≠ ':' := by
            intro hc
            exact hl (by simp [hc])
          exact beq_eq_false_iff_ne.mpr (fun h => hc0 h.symm)
        simp [delim_eq, startsWith, hc2]
      | c2 :: c3 :: p' =>
        cases hcc : startsWith delim ((c :: c2 :: c3 :: p') ++ (delim ++ d))
        case false => rfl
        case true =>
          exfalso
          simp only [delim_eq, List.cons_append, startsWith, Bool.and_eq_true,
            beq_iff_eq] at hcc
          obtain ⟨h1, h2, h3', _⟩ := hcc
          rw [← h1, ← h2, ← h3'] at h3
          simp [containsSeq, startsWith, delim_eq] at h3
    have h3' : containsSeq delim p = false := containsSeq_cons_false h3
    have hl' : p.getLast? ≠ some ':' := by
      match p with
      | [] => simp
      | x :: xs =>
        rw [List.getLast?_cons_cons] at hl
        exact hl
    simp only [List.cons_append]
    rw [splitFirst.eq_def]
    simp only [List.cons_append] at hguard
    simp only [hguard, Bool.false_eq_true, if_false]
    simp [ih h3' hl']

theorem dropWhile_isPySpace_eq_self (l : List Char)
    (h : ∀ c, l.head? = some c → isPySpace c = false) :
    l.dropWhile isPySpace = l := by
  match l with
  | [] => rfl
  | c :: t =>
    have hc : isPySpace c = false := h c rfl
    simp [List.dropWhile, hc]

theorem pyStrip_eq_self (l : List Char)
    (h1 : ∀ c, l.head? = some c → isPySpace c = false)
    (h2 : ∀ c, l.getLast? = some c → isPySpace c = false) :
    pyStrip l = l := by
  unfold pyStrip
  rw [dropWhile_isPySpace_eq_self l h1]
  rw [dropWhile_isPySpace_eq_self l.reverse (by
    intro c hc
    rw [List.head?_reverse] at hc
    exact h2 c hc)]
  exact List.reverse_reverse l

theorem splitLinesNl_append (l rest : List Char) (h : newlineChar ∉ l) :
    splitLinesNl (l ++ newlineChar :: rest) = l :: splitLinesNl rest := by
  induction l with
  | nil => simp [splitLinesNl, newlineChar]
  | cons c l ih =>
    have hc : (c == '\n') = false := by
      simp only [newlineChar, List.mem_cons, not_or] at h
      exact beq_eq_false_iff_ne.mpr (fun hh => h.1 hh.symm)
    have hl : newlineChar ∉ l := by
      simp only [newlineChar, List.mem_cons, not_or] at h
      exact h.2
    simp only [List.cons_append]
    rw [splitLinesNl.eq_def]
    simp [hc, ih hl]

theorem normNewlines_eq_self (s : List Char) (h : '\r' ∉ s) :
    normNewlines s = s := by
  induction s with
  | nil => rfl
  | cons c t ih =>
    simp only [List.mem_cons, not_or] at h
    have hc : (c == '\r') = false :=
      beq_eq_false_iff_ne.mpr (fun hh => h.1 hh.symm)
    cases t with
    | nil => simp [normNewlines, hc]
    | cons c2 rest => simp [normNewlines, hc, ih h.2]

theorem entryOfLine_clean (p d : List Char) (hp : cleanPathB p = true)
    (hd : cleanDigestB d = true) : entryOfLine (p ++ (delim ++ d)) = some (p, d) := by
  simp only [cleanPathB, Bool.and_eq_true, Bool.not_eq_true'] at hp
  obtain ⟨⟨⟨⟨hp1, hp2⟩, _⟩, _⟩, hp4⟩ := hp
  simp only [cleanDigestB, Bool.and_eq_true, Bool.not_eq_true'] at hd
  obtain ⟨⟨_, _⟩, hd2⟩ := hd
  have hp2' : p.getLast? ≠ some ':' := by
    intro h
    rw [h] at hp2
    simp at hp2
  have hhead : ∀ c, (p ++ (delim ++ d)).head? = some c → isPySpace c = false := by
    intro c hc
    match p with
    | [] =>
      rw [delim_eq] at hc
      simp only [List.nil_append, List.cons_append, List.head?_cons,
        Option.some.injEq] at hc
      rw [← hc]
      decide
    | a :: p' =>
      simp only [List.cons_append, List.head?_cons, Option.some.injEq] at hc
      simp only [List.head?_cons, Option.all_some, Bool.not_eq_true'] at hp4
      rw [← hc]
      exact hp4
  have hlast : ∀ c, (p ++ (delim ++ d)).getLast? = some c → isPySpace c = false := by
    intro c hc
    match d with
    | [] =>
      rw [List.getLast?_append_of_ne_nil p (by simp [delim_eq])] at hc
      rw [delim_eq] at hc
      simp only [List.append_nil] at hc
      simp only [List.getLast?] at hc
      simp at hc
      rw [← hc]
      decide
    | b :: d' =>
      rw [List.getLast?_append_of_ne_nil p (by simp [delim_eq])] at hc
      rw [List.getLast?_append_of_ne_nil delim (by simp)] at hc
      rw [hc] at hd2
      simp only [Option.all_some, Bool.not_eq_true'] at hd2
      exact hd2
  have hcont := containsSeq_append_delim p d
  simp only [entryOfLine, hcont, if_true]
  rw [pyStrip_eq_self _ hhead hlast, splitFirst_append_delim p d hp1 hp2']

/-! ### Lemmas about the dict model -/

theorem dictInsert_of_not_mem (k v : List Char) (h : List (List Char × List Char))
    (hk : k ∉ h.map Prod.fst) : dictInsert k v h = h ++ [(k, v)] := by
  induction h with
  | nil => rfl
  | cons e rest ih =>
    simp only [List.map_cons, List.mem_cons, not_or] at hk
    simp only [dictInsert]
    rw [if_neg (fun (he : e.1 = k) => hk.1 he.symm), ih hk.2]
    simp

theorem dictGet_of_mem_nodup (m : List (List Char × List Char)) (p v : List Char)
    (hnd : (m.map Prod.fst).Nodup) (hm : (p, v) ∈ m) : dictGet p m = some v := by
  induction m with
  | nil => simp at hm
  | cons e rest ih =>
    simp only [List.map_cons, List.nodup_cons] at hnd
    rcases List.mem_cons.mp hm with he | hrest
    · rw [← he]
      simp [dictGet]
    · have hne : e.1 ≠ p := by
        intro he1
        exact hnd.1 (he1 ▸ (List.mem_map_of_mem Prod.fst hrest))
      simp only [dictGet, if_neg hne]
      exact ih hnd.2 hrest

theorem dictGet_insert_self (k v : List Char) (h : List (List Char × List Char)) :
    dictGet k (dictInsert k v h) = some v := by
  induction h with
  | nil => simp [dictInsert, dictGet]
  | cons e rest ih =>
    by_cases he : e.1 = k
    · simp [dictInsert, dictGet, he]
    · simp [dictInsert, dictGet, he, ih]

theorem dictGet_insert_ne (k q v : List Char) (h : List (List Char × List Char))
    (hne : q ≠ k) : dictGet q (dictInsert k v h) = dictGet q h := by
  have hkq : ¬k = q := fun hh => hne hh.symm
  induction h with
  | nil => simp [dictInsert, dictGet, hkq]
  | cons e rest ih =>
    by_cases he : e.1 = k
    · simp [dictInsert, dictGet, he, hkq]
    · simp [dictInsert, dictGet, he, ih]

theorem mem_keys_of_dictGet (p : List Char) (h : List (List Char × List Char))
    (v : List Char) (hget : dictGet p h = some v) : p ∈ h.map Prod.fst := by
  induction h with
  | nil => simp [dictGet] at hget
  | cons e rest ih =>
    by_cases he : e.1 = p
    · simp [he]
    · simp only [dictGet, if_neg he] at hget
      simp [ih hget]

theorem mem_keys_dictInsert (q k v : List Char) (h : List (List Char × List Char)) :
    q ∈ (dictInsert k v h).map Prod.fst ↔ q ∈ h.map Prod.fst ∨ q = k := by
  induction h with
  | nil => simp [dictInsert]
  | cons e rest ih =>
    by_cases he : e.1 = k
    · simp only [dictInsert, if_pos he, List.map_cons, List.mem_cons]
      rw [he]
      tauto
    · simp only [dictInsert, if_neg he, List.map_cons, List.mem_cons, ih]
      tauto

theorem nodupKeys_dictInsert (k v : List Char) (h : List (List Char × List Char))
    (hnd : (h.map Prod.fst).Nodup) : ((dictInsert k v h).map Prod.fst).Nodup := by
  induction h with
  | nil => simp [dictInsert]
  | cons e rest ih =>
    simp only [List.map_cons, List.nodup_cons] at hnd
    by_cases he : e.1 = k
    · simp only [dictInsert, if_pos he, List.map_cons, List.nodup_cons]
      exact ⟨he ▸ hnd.1, hnd.2⟩
    · simp only [dictInsert, if_neg he, List.map_cons, List.nodup_cons]
      refine ⟨fun hmem => ?_, ih hnd.2⟩
      rcases (mem_keys_dictInsert e.1 k v rest).mp hmem with hm | hm
      · exact hnd.1 hm
      · exact he hm

theorem cleanPathB_not_newline {p : List Char} (hp : cleanPathB p = true) :
    newlineChar ∉ p := by
  simp only [cleanPathB, Bool.and_eq_true, Bool.not_eq_true',
    decide_eq_false_iff_not] at hp
  exact hp.1.1.2

theorem cleanPathB_not_carriage {p : List Char} (hp : cleanPathB p = true) :
    '\r' ∉ p := by
  simp only [cleanPathB, Bool.and_eq_true, Bool.not_eq_true',
    decide_eq_false_iff_not] at hp
  exact hp.1.2

theorem cleanDigestB_not_newline {d : List Char} (hd : cleanDigestB d = true) :
    newlineChar ∉ d := by
  simp only [cleanDigestB, Bool.and_eq_true, Bool.not_eq_true',
    decide_eq_false_iff_not] at hd
  exact hd.1.1

theorem cleanDigestB_not_carriage {d : List Char} (hd : cleanDigestB d = true) :
    '\r' ∉ d := by
  simp only [cleanDigestB, Bool.and_eq_true, Bool.not_eq_true',
    decide_eq_false_iff_not] at hd
  exact hd.1.2

theorem entryOfLine_nil : entryOfLine [] = none := by decide

theorem splitLinesNl_encodeManifest (m : List (List Char × List Char))
    (hcl : ∀ e ∈ m, cleanPathB e.1 = true ∧ cleanDigestB e.2 = true) :
    splitLinesNl (encodeManifest m) = m.map (fun e => e.1 ++ (delim ++ e.2)) ++ [[]] := by
  induction m with
  | nil => rfl
  | cons e rest ih =>
    have he := hcl e (List.mem_cons_self e rest)
    have hnl : newlineChar ∉ e.1 ++ (delim ++ e.2) := by
      simp only [List.mem_append, not_or]
      exact ⟨cleanPathB_not_newline he.1, by decide, cleanDigestB_not_newline he.2⟩
    have hrw : encodeManifest (e :: rest) =
        (e.1 ++ (delim ++ e.2)) ++ newlineChar :: encodeManifest rest := by
      simp [encodeManifest, manifestLine]
    rw [hrw, splitLinesNl_append _ _ hnl,
      ih (fun e' he' => hcl e' (List.mem_cons_of_mem e he'))]
    simp

theorem not_carriage_encodeManifest (m : List (List Char × List Char))
    (hcl : ∀ e ∈ m, cleanPathB e.1 = true ∧ cleanDigestB e.2 = true) :
    '\r' ∉ encodeManifest m := by
  intro hmem
  obtain ⟨l, hl, hc⟩ := List.mem_flatten.mp hmem
  obtain ⟨e, he, rfl⟩ := List.mem_map.mp hl
  have hcle := hcl e he
  simp only [manifestLine, List.append_assoc, List.mem_append,
    List.mem_singleton] at hc
  rcases hc with hc | hc | hc | hc
  · exact cleanPathB_not_carriage hcle.1 hc
  · revert hc
    decide
  · exact cleanDigestB_not_carriage hcle.2 hc
  · revert hc
    simp [newlineChar]

theorem splitLines_encodeManifest (m : List (List Char × List Char))
    (hcl : ∀ e ∈ m, cleanPathB e.1 = true ∧ cleanDigestB e.2 = true) :
    splitLines (encodeManifest m) = m.map (fun e => e.1 ++ (delim ++ e.2)) ++ [[]] := by
  unfold splitLines
  rw [normNewlines_eq_self (encodeManifest m) (not_carriage_encodeManifest m hcl)]
  exact splitLinesNl_encodeManifest m hcl

theorem foldl_dictInsert_nodup :
    ∀ (m acc : List (List Char × List Char)),
      (m.map Prod.fst).Nodup → (∀ e ∈ m, e.1 ∉ acc.map Prod.fst) →
      m.foldl (fun h e => dictInsert e.1 e.2 h) acc = acc ++ m := by
  intro m
  induction m with
  | nil =>
    intro acc _ _
    simp
  | cons e rest ih =>
    intro acc hnd hdisj
    simp only [List.map_cons, List.nodup_cons] at hnd
    simp only [List.foldl_cons]
    rw [dictInsert_of_not_mem e.1 e.2 acc (hdisj e (List.mem_cons_self e rest))]
    rw [ih (acc ++ [e]) hnd.2 ?_]
    · simp
    · intro e' he'
      simp only [List.map_append, List.mem_append, not_or]
      refine ⟨hdisj e' (List.mem_cons_of_mem e he'), ?_⟩
      simp only [List.map_cons, List.map_nil, List.mem_singleton]
      intro heq
      exact hnd.1 (heq ▸ List.mem_map_of_mem Prod.fst he')

theorem loadHashes_encodeManifest (m : List (List Char × List Char))
    (hnd : (m.map Prod.fst).Nodup)
    (hcl : ∀ e ∈ m, cleanPathB e.1 = true ∧ cleanDigestB e.2 = true) :
    loadHashes (encodeManifest m) = m := by
  rw [loadHashes, splitLines_encodeManifest m hcl]
  unfold loadHashesLines
  rw [List.foldl_append, List.foldl_map]
  have hstep : ∀ (h : List (List Char × List Char)), ∀ e ∈ m,
      (fun (h : List (List Char × List Char)) line =>
        match entryOfLine line with
        | some e => dictInsert e.1 e.2 h
        | none => h) h (e.1 ++ (delim ++ e.2)) = dictInsert e.1 e.2 h := by
    intro h e he
    have hline := entryOfLine_clean e.1 e.2 (hcl e he).1 (hcl e he).2
    simp [hline]
  rw [@List.foldl_ext _ _ _ (fun h (e : List Char × List Char) => dictInsert e.1 e.2 h)
    [] m hstep]
  rw [foldl_dictInsert_nodup m [] hnd (by simp)]
  simp [entryOfLine_nil]

/-! ### Lemmas about the verification loop -/

theorem keys_buildEntries (sha : List Nat → List Char)
    (files : List (List Char × List Nat)) :
    (buildEntries sha files).map Prod.fst = files.map Prod.fst := by
  simp only [buildEntries, List.map_map]
  rfl

theorem dictGet_buildEntries (sha : List Nat → List Char)
    (files : List (List Char × List Nat)) (p : List Char) (c : List Nat)
    (hnd : (files.map Prod.fst).Nodup) (hm : (p, c) ∈ files) :
    dictGet p (buildEntries sha files) = some (sha c) := by
  apply dictGet_of_mem_nodup
  · rw [keys_buildEntries]
    exact hnd
  · exact List.mem_map_of_mem (fun f => (f.1, sha f.2)) hm

theorem verifyCounts_go (sha : List Nat → List Char) (m : List (List Char × List Char))
    (files : List (List Char × List Nat)) : ∀ a b : Nat,
    files.foldl
      (fun acc f =>
        if dictGet f.1 m = some (sha f.2) then (acc.1 + 1, acc.2) else (acc.1, acc.2 + 1))
      (a, b)
    = (a + files.countP (fun f => decide (dictGet f.1 m = some (sha f.2))),
       b + files.countP (fun f => !decide (dictGet f.1 m = some (sha f.2)))) := by
  induction files with
  | nil =>
    intro a b
    simp
  | cons f rest ih =>
    intro a b
    by_cases hf : dictGet f.1 m = some (sha f.2)
    · simp only [List.foldl_cons, if_pos hf, ih, List.countP_cons, hf]
      simp
      omega
    · simp only [List.foldl_cons, if_neg hf, ih, List.countP_cons]
      simp [hf]
      omega

theorem verifyCounts_eq (sha : List Nat → List Char) (m : List (List Char × List Char))
    (files : List (List Char × List Nat)) :
    verifyCounts sha m files =
      (files.countP (fun f => decide (dictGet f.1 m = some (sha f.2))),
       files.countP (fun f => !decide (dictGet f.1 m = some (sha f.2)))) := by
  unfold verifyCounts
  rw [show ((0, 0) : Nat × Nat) = ((0 : Nat), (0 : Nat)) from rfl, verifyCounts_go]
  simp

theorem countP_not_add (p : (List Char × List Nat) → Bool)
    (l : List (List Char × List Nat)) :
    l.countP p + l.countP (fun a => !p a) = l.length := by
  induction l with
  | nil => rfl
  | cons a l ih =>
    simp only [List.countP_cons, List.length_cons]
    cases hp : p a <;> simp [hp] <;> omega

theorem verifyResults_map_fst (sha : List Nat → List Char)
    (m : List (List Char × List Char)) (files : List (List Char × List Nat)) :
    (verifyResults sha m files).map Prod.fst = files.map Prod.fst := by
  simp only [verifyResults, List.map_map]
  rfl

theorem verifyResults_self (sha : List Nat → List Char)
    (files : List (List Char × List Nat)) (hnd : (files.map Prod.fst).Nodup) :
    verifyResults sha (buildEntries sha files) files = files.map (fun f => (f.1, true)) := by
  apply List.map_congr_left
  intro f hf
  have hget : dictGet f.1 (buildEntries sha files) = some (sha f.2) :=
    dictGet_buildEntries sha files f.1 f.2 hnd hf
  simp [hget]

theorem verifiedCount_all_ok (sha : List Nat → List Char)
    (m : List (List Char × List Char)) (files : List (List Char × List Nat))
    (h : ∀ f ∈ files, dictGet f.1 m = some (sha f.2)) :
    verifiedCount sha m files = files.length ∧ failedCount sha m files = 0 := by
  unfold verifiedCount failedCount
  rw [verifyCounts_eq]
  constructor
  · exact List.countP_eq_length.mpr (fun f hf => by simp [h f hf])
  · exact List.countP_eq_zero.mpr (fun f hf => by simp [h f hf])

/-! ### Lemmas about `eraseIdx` (file deletion) -/

theorem map_fst_eraseIdx (files : List (List Char × List Nat)) (j : Nat) :
    (files.eraseIdx j).map Prod.fst = (files.map Prod.fst).eraseIdx j := by
  induction files generalizing j with
  | nil => rfl
  | cons f t ih =>
    cases j with
    | zero => rfl
    | succ j => simp [List.eraseIdx, ih]

theorem not_mem_eraseIdx (L : List (List Char)) (j : Nat) (p : List Char)
    (hnd : L.Nodup) (hj : L[j]? = some p) : p ∉ L.eraseIdx j := by
  induction L generalizing j with
  | nil => simp at hj
  | cons x t ih =>
    simp only [List.nodup_cons] at hnd
    cases j with
    | zero =>
      simp only [List.getElem?_cons_zero, Option.some.injEq] at hj
      simpa [List.eraseIdx, ← hj] using hnd.1
    | succ j =>
      simp only [List.getElem?_cons_succ] at hj
      simp only [List.eraseIdx, List.mem_cons, not_or]
      refine ⟨?_, ih j hnd.2 hj⟩
      intro hpx
      exact hnd.1 (hpx ▸ List.getElem?_mem hj)

theorem mem_eraseIdx_of_ne (L : List (List Char)) (j : Nat) (q p : List Char)
    (hj : L[j]? = some p) (hq : q ∈ L) (hne : q ≠ p) : q ∈ L.eraseIdx j := by
  induction L generalizing j with
  | nil => simp at hq
  | cons x t ih =>
    cases j with
    | zero =>
      simp only [List.getElem?_cons_zero, Option.some.injEq] at hj
      rcases List.mem_cons.mp hq with rfl | hqt
      · exact absurd hj hne
      · simpa [List.eraseIdx] using hqt
    | succ j =>
      simp only [List.getElem?_cons_succ] at hj
      rcases List.mem_cons.mp hq with rfl | hqt
      · simp [List.eraseIdx]
      · simp [List.eraseIdx, ih j hj hqt]

theorem filter_eq_singleton (L : List (List Char)) (p : List Char)
    (pred : List Char → Bool) (hnd : L.Nodup) (hp : p ∈ L) (hpt : pred p = true)
    (hothers : ∀ q ∈ L, q ≠ p → pred q = false) : L.filter pred = [p] := by
  induction L with
  | nil => simp at hp
  | cons x t ih =>
    simp only [List.nodup_cons] at hnd
    rcases List.mem_cons.mp hp with rfl | hpmem
    · rw [List.filter_cons_of_pos hpt]
      have ht : t.filter pred = [] := by
        rw [List.filter_eq_nil_iff]
        intro q hq
        have hqp : q ≠ p := fun h => hnd.1 (h ▸ hq)
        simp [hothers q (List.mem_cons_of_mem p hq) hqp]
      rw [ht]
    · have hx : pred x = false := by
        refine hothers x (List.mem_cons_self x t) ?_
        intro hxp
        exact hnd.1 (hxp ▸ hpmem)
      rw [List.filter_cons_of_neg (by simp [hx])]
      exact ih hnd.2 hpmem (fun q hq hqp => hothers q (List.mem_cons_of_mem x hq) hqp)

/-! ### Lemmas about duplicate manifest lines (dict overwrite semantics) -/

theorem dictGet_foldl_lines (p : List Char) :
    ∀ (lines : List (List Char)) (acc : List (List Char × List Char)),
      dictGet p (lines.foldl
        (fun h line =>
          match entryOfLine line with
          | some e => dictInsert e.1 e.2 h
          | none => h) acc) =
      (match (lines.filterMap entryOfLine).reverse.find? (fun e => e.1 == p) with
       | some e => some e.2
       | none => dictGet p acc) := by
  intro lines
  induction lines with
  | nil =>
    intro acc
    rfl
  | cons l rest ih =>
    intro acc
    simp only [List.foldl_cons, List.filterMap_cons]
    cases hl : entryOfLine l with
    | none =>
      simp only [hl]
      exact ih acc
    | some e =>
      simp only [hl]
      rw [ih (dictInsert e.1 e.2 acc)]
      rw [List.reverse_cons, List.find?_append]
      cases hf : (rest.filterMap entryOfLine).reverse.find? (fun e' => e'.1 == p) with
      | some e' => simp [hf]
      | none =>
        simp only [hf, Option.none_or]
        by_cases hep : e.1 = p
        · have hb : (e.1 == p) = true := beq_iff_eq.mpr hep
          simp only [List.find?_cons, hb, cond_true]
          rw [← hep, dictGet_insert_self]
        · have hb : (e.1 == p) = false := beq_eq_false_iff_ne.mpr hep
          simp only [List.find?_cons, hb, cond_false, List.find?_nil]
          exact dictGet_insert_ne e.1 p e.2 acc (fun h => hep h.symm)

theorem nodupKeys_foldl_lines :
    ∀ (lines : List (List Char)) (acc : List (List Char × List Char)),
      (acc.map Prod.fst).Nodup →
      ((lines.foldl
        (fun h line =>
          match entryOfLine line with
          | some e => dictInsert e.1 e.2 h
          | none => h) acc).map Prod.fst).Nodup := by
  intro lines
  induction lines with
  | nil =>
    intro acc h
    exact h
  | cons l rest ih =>
    intro acc hacc
    simp only [List.foldl_cons]
    cases hl : entryOfLine l with
    | none =>
      simp only [hl]
      exact ih acc hacc
    | some e =>
      simp only [hl]
      exact ih _ (nodupKeys_dictInsert e.1 e.2 acc hacc)

/-! ### The two precondition error messages are distinct -/

theorem dirErrMsg_ne_manifestErrMsg (d f : List Char) :
    dirErrMsg d ≠ manifestErrMsg f := by
  intro h
  have h2 := congrArg (fun l => (List.reverse l).take 2) h
  simp only [dirErrMsg, manifestErrMsg, List.reverse_append, List.append_assoc] at h2
  have hlen1 : (2 : Nat) ≤ (str " is not a valid directory.").reverse.length := by decide
  have hlen2 : (2 : Nat) ≤ (str " does not exist.").reverse.length := by decide
  rw [List.take_append_of_le_length hlen1, List.take_append_of_le_length hlen2] at h2
  revert h2
  decide

/-! ### Claim theorems -/

/-- C9: after every completed verification run the reported `Total files`
count equals `Verified` plus `Failed Verification`, the total equals the
number of traversed files, and the two counters count exactly the results
classified `true` (verified) and `false` (failed) — so every file is counted
in exactly one of the two categories. -/
theorem counts_partition (sha : List Nat → List Char) (m : List (List Char × List Char))
    (files : List (List Char × List Nat)) :
    totalFiles sha m files = verifiedCount sha m files + failedCount sha m files
    ∧ totalFiles sha m files = files.length
    ∧ verifiedCount sha m files = ((verifyResults sha m files).filter (fun r => r.2)).length
    ∧ failedCount sha m files = ((verifyResults sha m files).filter (fun r => !r.2)).length := by
  refine ⟨rfl, ?_, ?_, ?_⟩
  · unfold totalFiles verifiedCount failedCount
    rw [verifyCounts_eq]
    exact countP_not_add _ _
  · unfold verifiedCount
    rw [verifyCounts_eq]
    simp only [verifyResults]
    rw [← List.countP_eq_length_filter, List.countP_map]
    rfl
  · unfold failedCount
    rw [verifyCounts_eq]
    simp only [verifyResults]
    rw [← List.countP_eq_length_filter, List.countP_map]
    rfl

/-- C6: during verification, a file on disk whose relative path is absent
from the loaded manifest is classified `failed verification` (`hashes.get`
returns `None`, which never equals a digest), and is counted in the
`Failed Verification` total; the result type has no distinct `Unexpected`
status. -/
theorem absent_path_fails (sha : List Nat → List Char) (m : List (List Char × List Char))
    (files : List (List Char × List Nat)) (i : Nat) (p : List Char) (c : List Nat)
    (hi : files[i]? = some (p, c)) (habs : dictGet p m = none) :
    (verifyResults sha m files)[i]? = some (p, false) ∧ 0 < failedCount sha m files := by
  have hres : (verifyResults sha m files)[i]? =
      some (p, decide (dictGet p m = some (sha c))) := by
    simp [verifyResults, List.getElem?_map, hi]
  constructor
  · rw [hres]
    simp [habs]
  · unfold failedCount
    rw [verifyCounts_eq]
    refine List.countP_pos_iff.mpr ⟨(p, c), List.getElem?_mem hi, ?_⟩
    simp [habs]

/-- C6 witness at a concrete input: one file `a` on disk, empty manifest. -/
theorem absent_path_fails_witness :
    (verifyResults demoHash [] [(str "a", [1])])[0]? = some (str "a", false)
    ∧ 0 < failedCount demoHash [] [(str "a", [1])] :=
  absent_path_fails demoHash [] [(str "a", [1])] 0 (str "a") [1] (by decide) (by decide)

/-- C7: the persisted verification report text is exactly, in order: one
status line per traversed file (relative path, alignment dashes, status) in
traversal order, then a blank line, then the boxed `Summary` header, then the
`Total files`, `Verified` and `Failed Verification` count lines — each line
terminated by a newline. -/
theorem report_structure (sha : List Nat → List Char) (m : List (List Char × List Char))
    (files : List (List Char × List Nat)) :
    reportText sha m files = linesJoin (reportLines sha m files) := by
  unfold reportText reportLines linesJoin
  simp only [verifyResults, List.map_map, List.map_append, List.flatten_append,
    List.map_cons, List.map_nil, List.flatten_cons, List.flatten_nil]
  simp [List.append_assoc, Function.comp_def]

/-- C2: tamper detection.  If the manifest holds the build-time digests of
`files` and exactly one file (index `j`) has its content replaced by `c'`
whose digest differs from the recorded one (SHA-256 collision-freeness,
taken as the hypothesis `sha c' ≠ sha c`), then that file is classified
`failed verification` and every other file is still classified `verified`. -/
theorem tamper_detected (sha : List Nat → List Char) (files : List (List Char × List Nat))
    (j : Nat) (p : List Char) (c c' : List Nat)
    (hnd : (files.map Prod.fst).Nodup)
    (hj : files[j]? = some (p, c))
    (hdiff : sha c' ≠ sha c) :
    (verifyResults sha (buildEntries sha files) (files.set j (p, c')))[j]? = some (p, false)
    ∧ ∀ i, i ≠ j →
        (verifyResults sha (buildEntries sha files) (files.set j (p, c')))[i]? =
          (files[i]?).map (fun f => (f.1, true)) := by
  have hjlt : j < files.length := by
    rcases List.getElem?_eq_some_iff.mp hj with ⟨h, _⟩
    exact h
  have hgetp : dictGet p (buildEntries sha files) = some (sha c) :=
    dictGet_buildEntries sha files p c hnd (List.getElem?_mem hj)
  constructor
  · rw [verifyResults, List.getElem?_map, List.getElem?_set_self (by simpa using hjlt)]
    have hd : decide (dictGet p (buildEntries sha files) = some (sha c')) = false := by
      rw [hgetp]
      simp only [decide_eq_false_iff_not, Option.some.injEq]
      exact fun hcc => hdiff hcc.symm
    simp [hd]
  · intro i hij
    rw [verifyResults, List.getElem?_map, List.getElem?_set_ne (fun h => hij h.symm)]
    cases hfi : files[i]? with
    | none => rfl
    | some f =>
      have hget : dictGet f.1 (buildEntries sha files) = some (sha f.2) :=
        dictGet_buildEntries sha files f.1 f.2 hnd (List.getElem?_mem hfi)
      simp [hget]

/-- C2 witness at a concrete input: two files, the first one's content
changed from `[1]` to `[3]`; the digests differ under `demoHash`. -/
theorem tamper_detected_witness :
    (verifyResults demoHash (buildEntries demoHash [(str "a", [1]), (str "b", [2])])
        ([(str "a", [1]), (str "b", [2])].set 0 (str "a", [3])))[0]? = some (str "a", false)
    ∧ ∀ i, i ≠ 0 →
        (verifyResults demoHash (buildEntries demoHash [(str "a", [1]), (str "b", [2])])
          ([(str "a", [1]), (str "b", [2])].set 0 (str "a", [3])))[i]? =
          (([(str "a", [1]), (str "b", [2])] : List (List Char × List Nat))[i]?).map
            (fun f => (f.1, true)) :=
  tamper_detected demoHash [(str "a", [1]), (str "b", [2])] 0 (str "a") [1] [3]
    (by decide) (by decide) (by decide)

/-- C1 (amended): self-verification.  For a directory whose relative paths
are unique, contain no `':::'`, no trailing `':'`, no newline or carriage
return (the text-mode reader translates `'\r'` and `'\r\n'` to `'\n'`) and
no leading Unicode whitespace, and whose digests contain no newline or
carriage return and no trailing Unicode whitespace (a SHA-256 hex digest
always qualifies), verifying against the manifest file just built from the
same directory classifies every file `verified`: the `Verified` count equals
the number of files, the `Failed Verification` count is zero, and no
manifest path is missing from disk. -/
theorem selfVerify_clean (sha : List Nat → List Char) (files : List (List Char × List Nat))
    (hnd : (files.map Prod.fst).Nodup)
    (hcl : ∀ f ∈ files, cleanPathB f.1 = true ∧ cleanDigestB (sha f.2) = true) :
    verifiedCount sha (loadHashes (buildText sha files)) files = files.length
    ∧ failedCount sha (loadHashes (buildText sha files)) files = 0
    ∧ specMissingPaths (loadHashes (buildText sha files)) files = [] := by
  have hm : loadHashes (buildText sha files) = buildEntries sha files := by
    unfold buildText
    apply loadHashes_encodeManifest
    · rw [keys_buildEntries]
      exact hnd
    · intro e he
      obtain ⟨f, hf, rfl⟩ := List.mem_map.mp he
      exact hcl f hf
  rw [hm]
  have hok : ∀ f ∈ files, dictGet f.1 (buildEntries sha files) = some (sha f.2) :=
    fun f hf => dictGet_buildEntries sha files f.1 f.2 hnd hf
  obtain ⟨hv, hf0⟩ := verifiedCount_all_ok sha (buildEntries sha files) files hok
  refine ⟨hv, hf0, ?_⟩
  unfold specMissingPaths
  rw [keys_buildEntries, List.filter_eq_nil_iff]
  intro q hq
  simp only [Bool.not_eq_true', Bool.not_eq_false]
  exact List.elem_eq_true_of_mem hq

/-- C1 witness at a concrete input: two clean files round-trip through the
manifest file and verify completely. -/
theorem selfVerify_clean_witness :
    verifiedCount demoHash
        (loadHashes (buildText demoHash [(str "a", [1]), (str "b/c", [2])]))
        [(str "a", [1]), (str "b/c", [2])] =
      ([(str "a", [1]), (str "b/c", [2])] : List (List Char × List Nat)).length
    ∧ failedCount demoHash
        (loadHashes (buildText demoHash [(str "a", [1]), (str "b/c", [2])]))
        [(str "a", [1]), (str "b/c", [2])] = 0
    ∧ specMissingPaths
        (loadHashes (buildText demoHash [(str "a", [1]), (str "b/c", [2])]))
        [(str "a", [1]), (str "b/c", [2])] = [] :=
  selfVerify_clean demoHash [(str "a", [1]), (str "b/c", [2])] (by decide) (by decide)

/-- C1 counterexample: the claim as stated fails on the code.  The directory
holding the single file `" a"` (a legal file name with a leading space, and
containing no `':::'`) has its manifest entry eroded by `line.strip()` in
`load_hashes`, so self-verification classifies the unchanged file
`failed verification`: Verified is 0, not the file count 1, and Mismatched
is 1, not 0. -/
theorem selfVerify_space_path_cex :
    containsSeq delim (str " a") = false
    ∧ verifiedCount demoHash (loadHashes (buildText demoHash [(str " a", [1])]))
        [(str " a", [1])] = 0
    ∧ failedCount demoHash (loadHashes (buildText demoHash [(str " a", [1])]))
        [(str " a", [1])] = 1 := by
  decide

/-- C3 (amended): the codec round-trip law.  `decode(encode(m)) = m` holds
for every manifest `m` with unique paths whose paths contain no `':::'`, do
not end in `':'`, contain no newline or carriage return (the reader
translates `'\r'` and `'\r\n'` to `'\n'`) and no leading Unicode
whitespace, and whose digests contain no newline or carriage return and no
trailing Unicode whitespace (universal-newline translation is then the
identity, and line stripping and first-delimiter splitting are exact
inverses of line writing). -/
theorem roundTrip_clean (m : List (List Char × List Char))
    (hnd : (m.map Prod.fst).Nodup)
    (hcl : ∀ e ∈ m, cleanPathB e.1 = true ∧ cleanDigestB e.2 = true) :
    loadHashes (encodeManifest m) = m :=
  loadHashes_encodeManifest m hnd hcl

/-- C3 witness at a concrete input: a two-entry manifest with clean paths
and digests decodes to itself. -/
theorem roundTrip_clean_witness :
    loadHashes (encodeManifest [(str "a", str "0"), (str "b/c", str "ff")]) =
      [(str "a", str "0"), (str "b/c", str "ff")] :=
  roundTrip_clean [(str "a", str "0"), (str "b/c", str "ff")] (by decide) (by decide)

/-- C3 counterexample: the claim as stated fails on the code.  The one-entry
manifest with path `" a"` (no `':::'` anywhere) does not round-trip:
`line.strip()` in `load_hashes` removes the leading space, so decoding the
encoded form yields the different mapping with key `"a"`. -/
theorem roundTrip_space_path_cex :
    (([(str " a", str "0")] : List (List Char × List Char)).map Prod.fst).Nodup
    ∧ (∀ e ∈ ([(str " a", str "0")] : List (List Char × List Char)),
        containsSeq delim e.1 = false)
    ∧ loadHashes (encodeManifest [(str " a", str "0")]) ≠ [(str " a", str "0")] := by
  decide

/-- C5 (amended): deleting one recorded file before verification.  The
remaining files all verify, so the `Verified` count is one fewer than the
manifest's entry count and `Failed Verification` is zero; but the deleted
path is not recorded anywhere in the run's output — it appears in no result
line (the code has no `Missing` category), even though it is exactly the one
manifest path absent from disk (the spec-side observer `specMissingPaths`). -/
theorem deleted_file_not_reported (sha : List Nat → List Char)
    (files : List (List Char × List Nat)) (j : Nat) (p : List Char) (c : List Nat)
    (hnd : (files.map Prod.fst).Nodup) (hj : files[j]? = some (p, c)) :
    verifiedCount sha (buildEntries sha files) (files.eraseIdx j) =
      (buildEntries sha files).length - 1
    ∧ failedCount sha (buildEntries sha files) (files.eraseIdx j) = 0
    ∧ p ∉ (verifyResults sha (buildEntries sha files) (files.eraseIdx j)).map Prod.fst
    ∧ specMissingPaths (buildEntries sha files) (files.eraseIdx j) = [p] := by
  have hjlt : j < files.length := by
    rcases List.getElem?_eq_some_iff.mp hj with ⟨h, _⟩
    exact h
  have hsub : ∀ f ∈ files.eraseIdx j, f ∈ files :=
    fun f hf => (List.eraseIdx_sublist files j).subset hf
  have hok : ∀ f ∈ files.eraseIdx j, dictGet f.1 (buildEntries sha files) = some (sha f.2) :=
    fun f hf => dictGet_buildEntries sha files f.1 f.2 hnd (hsub f hf)
  obtain ⟨hv, hf0⟩ := verifiedCount_all_ok sha (buildEntries sha files) (files.eraseIdx j) hok
  have hkeyj : (files.map Prod.fst)[j]? = some p := by
    rw [List.getElem?_map, hj]
    rfl
  have hpnot : p ∉ (files.eraseIdx j).map Prod.fst := by
    rw [map_fst_eraseIdx]
    exact not_mem_eraseIdx (files.map Prod.fst) j p hnd hkeyj
  refine ⟨?_, hf0, ?_, ?_⟩
  · rw [hv, buildEntries, List.length_map, List.length_eraseIdx]
    simp [hjlt]
  · rw [verifyResults_map_fst]
    exact hpnot
  · unfold specMissingPaths
    rw [keys_buildEntries]
    apply filter_eq_singleton (files.map Prod.fst) p _ hnd (List.getElem?_mem hkeyj)
    · have hc : ((files.eraseIdx j).map Prod.fst).contains p = false := by
        cases hcc : ((files.eraseIdx j).map Prod.fst).contains p
        · rfl
        · exact absurd (List.mem_of_elem_eq_true hcc) hpnot
      show (!((files.eraseIdx j).map Prod.fst).contains p) = true
      rw [hc]
      rfl
    · intro q hq hqp
      have hqmem : q ∈ (files.eraseIdx j).map Prod.fst := by
        rw [map_fst_eraseIdx]
        exact mem_eraseIdx_of_ne (files.map Prod.fst) j q p hkeyj hq hqp
      show (!((files.eraseIdx j).map Prod.fst).contains q) = false
      have hct : ((files.eraseIdx j).map Prod.fst).contains q = true :=
        List.elem_eq_true_of_mem hqmem
      rw [hct]
      rfl

/-- C5 witness at a concrete input: deleting the second of two recorded
files. -/
theorem deleted_file_not_reported_witness :
    verifiedCount demoHash (buildEntries demoHash [(str "a", [1]), (str "b", [2])])
        ([(str "a", [1]), (str "b", [2])].eraseIdx 1) =
      (buildEntries demoHash [(str "a", [1]), (str "b", [2])]).length - 1
    ∧ failedCount demoHash (buildEntries demoHash [(str "a", [1]), (str "b", [2])])
        ([(str "a", [1]), (str "b", [2])].eraseIdx 1) = 0
    ∧ str "b" ∉ (verifyResults demoHash (buildEntries demoHash [(str "a", [1]), (str "b", [2])])
        ([(str "a", [1]), (str "b", [2])].eraseIdx 1)).map Prod.fst
    ∧ specMissingPaths (buildEntries demoHash [(str "a", [1]), (str "b", [2])])
        ([(str "a", [1]), (str "b", [2])].eraseIdx 1) = [str "b"] :=
  deleted_file_not_reported demoHash [(str "a", [1]), (str "b", [2])] 1 (str "b") [2]
    (by decide) (by decide)

/-- C5 counterexample: the claim as stated fails on the code.  After
deleting file `b` (recorded in the manifest) the run's entire report —
status lines and summary — never mentions `b`: nothing is "recorded as
Missing"; the summary holds only the `Verified`/`Failed` counts. -/
theorem deleted_file_no_missing_record :
    str "b" ∉ (verifyResults demoHash (buildEntries demoHash [(str "a", [1]), (str "b", [2])])
        [(str "a", [1])]).map Prod.fst
    ∧ (∀ l ∈ reportLines demoHash (buildEntries demoHash [(str "a", [1]), (str "b", [2])])
        [(str "a", [1])], containsSeq (str "b") l = false) := by
  decide

/-- C8: `verify_hashes` checks its two preconditions before loading the
manifest or traversing anything: if the directory probe fails it aborts with
the "is not a valid directory" error regardless of the manifest text or the
directory contents; if the directory probe succeeds but the manifest-file
probe fails it aborts with the "does not exist" error, again regardless of
the rest of the world; and the two error messages are distinct for all
argument values. -/
theorem precondition_errors (sha : List Nat → List Char) (d hf : List Char)
    (de me : Bool) :
    (de = false → ∀ mt fs, verifyRun sha ⟨d, hf, de, me, mt, fs⟩ =
      Except.error (dirErrMsg d))
    ∧ (de = true → me = false → ∀ mt fs, verifyRun sha ⟨d, hf, de, me, mt, fs⟩ =
      Except.error (manifestErrMsg hf))
    ∧ (∀ d2 f2, dirErrMsg d2 ≠ manifestErrMsg f2) := by
  refine ⟨?_, ?_, dirErrMsg_ne_manifestErrMsg⟩
  · intro hde mt fs
    simp [verifyRun, hde]
  · intro hde hme mt fs
    simp [verifyRun, hde, hme]

/-- C8 witness at concrete inputs: both precondition failures produce their
respective errors, and the two messages differ. -/
theorem precondition_errors_witness :
    verifyRun demoHash ⟨str "d", str "h", false, true, [], []⟩ =
      Except.error (dirErrMsg (str "d"))
    ∧ verifyRun demoHash ⟨str "d", str "h", true, false, [], []⟩ =
      Except.error (manifestErrMsg (str "h"))
    ∧ dirErrMsg (str "d") ≠ manifestErrMsg (str "h") :=
  ⟨(precondition_errors demoHash (str "d") (str "h") false true).1 rfl [] [],
    (precondition_errors demoHash (str "d") (str "h") true false).2.1 rfl rfl [] [],
    (precondition_errors demoHash (str "d") (str "h") false true).2.2 (str "d") (str "h")⟩

/-- C10: if the manifest text has at least one well-formed (delimiter
carrying) line whose parsed path is `p`, decoding keeps exactly one entry
for `p` — its digest is the one parsed from the last such line (the first
match in the reversed sequence of parsed entries), and `p` occurs exactly
once among the decoded keys. -/
theorem duplicate_path_last_wins (text : List Char) (p : List Char)
    (h : ∃ e ∈ (splitLines text).filterMap entryOfLine, e.1 = p) :
    dictGet p (loadHashes text) =
      ((((splitLines text).filterMap entryOfLine).reverse.find?
        (fun e => e.1 == p)).map Prod.snd)
    ∧ ((loadHashes text).map Prod.fst).countP (fun q => decide (q = p)) = 1 := by
  cases hf : ((splitLines text).filterMap entryOfLine).reverse.find? (fun e => e.1 == p) with
  | none =>
    exfalso
    rw [List.find?_eq_none] at hf
    obtain ⟨e, he, hep⟩ := h
    exact hf e (List.mem_reverse.mpr he) (by simp [hep])
  | some e =>
    have hget : dictGet p (loadHashes text) = some e.2 := by
      show dictGet p (loadHashesLines (splitLines text)) = some e.2
      unfold loadHashesLines
      rw [dictGet_foldl_lines p (splitLines text) [], hf]
    refine ⟨by rw [hget]; rfl, ?_⟩
    have hnd : ((loadHashes text).map Prod.fst).Nodup := by
      show ((loadHashesLines (splitLines text)).map Prod.fst).Nodup
      unfold loadHashesLines
      exact nodupKeys_foldl_lines (splitLines text) [] (by simp)
    have hmem : p ∈ (loadHashes text).map Prod.fst :=
      mem_keys_of_dictGet p (loadHashes text) e.2 hget
    exact List.count_eq_one_of_mem hnd hmem

/-- C10 witness at a concrete input: the text `a:::1\na:::2\n` decodes to a
single entry for `a` whose digest comes from the last line. -/
theorem duplicate_path_last_wins_witness :
    dictGet (str "a") (loadHashes (str "a:::1\na:::2\n")) =
      ((((splitLines (str "a:::1\na:::2\n")).filterMap entryOfLine).reverse.find?
        (fun e => e.1 == str "a")).map Prod.snd)
    ∧ ((loadHashes (str "a:::1\na:::2\n")).map Prod.fst).countP
        (fun q => decide (q = str "a")) = 1 :=
  duplicate_path_last_wins (str "a:::1\na:::2\n") (str "a") (by decide)

/-- C4: the claim holds for the build traversal but the code violates it in
the verify traversal.  At a directory whose first file `a` is unreadable and
whose second file `b` is readable: the build loop catches the per-file
failure and still writes the entry for `b` (src/buic.py lines 145-149), but
`verify_hashes` calls `calculate_sha256` with no handler (line 57), so the
verify run aborts with the uncaught read error — it reaches neither `b` nor
any summary. -/
theorem verify_aborts_on_unreadable :
    buildTextF demoHash [(str "a", none), (str "b", some [1])] = str "b:::1\n"
    ∧ verifyRun demoHash ⟨str "d", str "h", true, true, str "a:::0\nb:::1\n",
        [(str "a", none), (str "b", some [1])]⟩ = Except.error (readErrMsg (str "a")) := by
  constructor
  · rfl
  · rfl

end Buic
